import Mathlib

/-!
Verification of the block codec, directory reconciler, file-action handler and
wire framing of the ClientServerMsgPassing repository, as a shallow embedding.

File contents are modelled as lists of bytes (`List Nat`), directories as lists
of files, and Python dictionaries with integer keys as association lists.  The
SHA-256 digest function is treated as an uninterpreted parameter
`hashFn : List Nat → String`; every statement proved below holds for an
arbitrary digest function, hence in particular for SHA-256.
-/

namespace ClientServerMsg

/-- A byte string: one natural number per byte. -/
abbrev Bytes := List Nat

/-- Fuel-indexed worker for `chunks`.  Mirrors the Python read loop
`for block in iter(lambda: f.read(block_size), b"")`: each iteration takes the
next `n` bytes; the loop stops on the empty read.  Note that for `n = 0`
Python's `f.read(0)` returns `b""` immediately, so the loop body never runs and
the resulting dictionary is empty, which the `n = 0` branch reproduces.
The fuel starts at the length of the byte string, which is enough because each
step consumes at least one byte. -/
def chunksAux {α : Type} (n : Nat) : Nat → List α → List (List α)
  | 0, _ => []
  | _, [] => []
  | fuel + 1, s => if n = 0 then [] else s.take n :: chunksAux n fuel (s.drop n)

/-- The block decomposition of a byte string at block size `n`:
blocks of exactly `n` bytes, the final block possibly shorter. -/
def chunks {α : Type} (n : Nat) (s : List α) : List (List α) :=
  chunksAux n s.length s

/-- The Python pattern `block_counter = 0; ...; hash_blocks[block_counter] = ...;
block_counter += 1`: pair each element of a list with its ordinal index,
starting from `i`. -/
def enumBlocks {α : Type} : Nat → List α → List (Nat × α)
  | _, [] => []
  | i, b :: bs => (i, b) :: enumBlocks (i + 1) bs

/-- Dictionary indexing `m[k]` on an association list (first entry wins,
as in a Python dict where keys are unique). -/
def dictGet {α : Type} (m : List (Nat × α)) (k : Nat) : Option α :=
  (m.find? (fun p => p.1 == k)).map (·.2)

/-- `m.keys()` on an association list. -/
def dictKeys {α : Type} (m : List (Nat × α)) : List Nat :=
  m.map (·.1)

/-- `sorted(m.keys())`: the distinct keys of the dictionary in ascending
order. -/
def sortedKeys {α : Type} (m : List (Nat × α)) : List Nat :=
  (dictKeys m).dedup.insertionSort (· ≤ ·)

/-- `create_block_list` (src/common/fileactions.py, lines 62-77): the
dictionary mapping each block index to the raw bytes of that block. -/
def create_block_list (s : Bytes) (n : Nat) : List (Nat × Bytes) :=
  enumBlocks 0 (chunks n s)

/-- `create_hashed_block_list` (src/common/fileactions.py, lines 43-59): the
dictionary mapping each block index to the digest of that block. -/
def create_hashed_block_list (hashFn : Bytes → String) (s : Bytes) (n : Nat) :
    List (Nat × String) :=
  enumBlocks 0 ((chunks n s).map hashFn)

/-- `create_file_from_blks` (src/common/fileactions.py, lines 80-90): write the
blocks out in ascending key order (`for key in sorted(blocks.keys())`) and
concatenate; the result is the byte content of the written file. -/
def create_file_from_blks (m : List (Nat × Bytes)) : Bytes :=
  ((sortedKeys m).map (fun k => (dictGet m k).getD [])).flatten

/-- Python's `{**a, **u}`: the merged dictionary whose key set is the union of
the two key sets, the right dictionary `u` taking precedence on conflicts. -/
def pythonMerge {α : Type} (a u : List (Nat × α)) : List (Nat × α) :=
  a.map (fun p => (p.1, (dictGet u p.1).getD p.2)) ++
    u.filter (fun p => !(decide (p.1 ∈ dictKeys a)))

/-- The file-content transformation performed by
`FileActionHandler.update_file` (src/common/fileactions.py, lines 206-232) on
an existing file with content `s`: read the file's own blocks, overlay the
update's blocks (`{**file_blocks, **blocks_to_update}`) and rewrite the file
with `create_file_from_blks`.  The base64 decoding of the transmitted block
values is the identity on the carried bytes and is not modelled. -/
def update_file_content (s : Bytes) (n : Nat) (u : List (Nat × Bytes)) : Bytes :=
  create_file_from_blks (pythonMerge (create_block_list s n) u)

/-- `hash_file` (src/common/fileactions.py, lines 27-40): the whole-file
digest, computed by folding the file's blocks into a single SHA-256 state.
Folding the chunks of `s` through SHA-256 is SHA-256 of their concatenation,
so the model applies the digest function to the concatenated chunks. -/
def hash_file (hashFn : Bytes → String) (s : Bytes) (n : Nat) : String :=
  hashFn (chunks n s).flatten

/-! ### Client-side diff computation (`RequestDispatcher._update_file_by_recipe`) -/

/-- A Python dictionary key as it occurs in the `(index, hash)` tuples of
`_update_file_by_recipe`: the locally computed `hashedBlocks` dictionary has
`int` keys, while the recipe received in the FileRecipe response has passed
through `decode_json` (src/common/message.py), and JSON object keys are
strings — `_update_file_by_recipe` performs no `int(k)` conversion (unlike
the server-side `update_file`, which does `{int(k): ... for k, v in
blocks.items()}`).  A Python tuple with an `int` first component is never
equal to one with a `str` first component. -/
inductive PyKey where
  | pyInt (n : Nat)
  | pyStr (s : String)
deriving DecidableEq, Repr

/-- The key set computed in `_update_file_by_recipe`
(src/client/client_requests.py, lines 32-61):
`dict(src_blk_set.difference(dest_block_set)).keys()`, where `src_blk_set` is
the set of `(int index, hash)` pairs of the locally computed hashed block
list and `dest_block_set` the set of `(str index, hash)` pairs of the
JSON-decoded recipe received from the server. -/
def update_blocks_keys (hashFn : Bytes → String) (s : Bytes) (n : Nat)
    (recipe : List (String × String)) : List Nat :=
  ((create_hashed_block_list hashFn s n).filter
    (fun p => !(decide ((PyKey.pyInt p.1, p.2) ∈
      recipe.map (fun q => (PyKey.pyStr q.1, q.2)))))).map (·.1)

/-- The dictionary of raw blocks placed into the UpdateFile request:
`{k: ... for k, v in src_blks.items() if k in update_blocks_keys}`.  (The
base64 encoding of the block values is the identity on the carried bytes and
is not modelled.) -/
def update_blks (hashFn : Bytes → String) (s : Bytes) (n : Nat)
    (recipe : List (String × String)) : List (Nat × Bytes) :=
  (create_block_list s n).filter
    (fun p => decide (p.1 ∈ update_blocks_keys hashFn s n recipe))

/-- The set of block indices the requester sends in the UpdateFile request. -/
def sent_indices (hashFn : Bytes → String) (s : Bytes) (n : Nat)
    (recipe : List (String × String)) : List Nat :=
  (update_blks hashFn s n recipe).map (·.1)

/-! ### Directory listings and the reconciler (`RequestDispatcher._directory_synch`) -/

/-- One row of a directory listing:
`dict(filename=..., file_size=..., sha256=...)`. -/
structure FileEntry where
  filename : String
  file_size : Nat
  sha256 : String
deriving DecidableEq, Repr

/-- The filenames of a listing. -/
def names (l : List FileEntry) : List String :=
  l.map (·.filename)

/-- `[i for i in remote_file_info if i in local_dir_listing]`. -/
def same_on_both (remote locl : List FileEntry) : List FileEntry :=
  remote.filter (fun i => decide (i ∈ locl))

/-- `[i for i in remote_file_info if i not in local_dir_listing]`. -/
def diff_on_remote (remote locl : List FileEntry) : List FileEntry :=
  remote.filter (fun i => !(decide (i ∈ locl)))

/-- `[i for i in local_dir_listing if i not in remote_file_info]`. -/
def diff_on_local (remote locl : List FileEntry) : List FileEntry :=
  locl.filter (fun i => !(decide (i ∈ remote)))

/-- `filter(lambda file: file['filename'] in diff_remote_file_names, diff_on_local)`:
entries present on both sides but with differing rows — classified *update*. -/
def on_both_different (remote locl : List FileEntry) : List FileEntry :=
  (diff_on_local remote locl).filter
    (fun f => decide (f.filename ∈ names (diff_on_remote remote locl)))

/-- `filter(lambda file: file['filename'] not in diff_remote_file_names, diff_on_local)`:
entries present only locally — classified *upload* (`create_new_file_request`). -/
def on_local_only (remote locl : List FileEntry) : List FileEntry :=
  (diff_on_local remote locl).filter
    (fun f => !(decide (f.filename ∈ names (diff_on_remote remote locl))))

/-- `filter(lambda file: file['filename'] not in diff_local_file_name, diff_on_remote)`:
entries present only remotely — classified *delete-remote* (`delete_file_request`). -/
def on_remote_only (remote locl : List FileEntry) : List FileEntry :=
  (diff_on_remote remote locl).filter
    (fun f => !(decide (f.filename ∈ names (diff_on_local remote locl))))

/-- Exactly one of four alternatives holds. -/
def ExactlyOne (a b c d : Prop) : Prop :=
  (a ∨ b ∨ c ∨ d) ∧ ¬(a ∧ b) ∧ ¬(a ∧ c) ∧ ¬(a ∧ d) ∧
    ¬(b ∧ c) ∧ ¬(b ∧ d) ∧ ¬(c ∧ d)

/-! ### The managed directory and the server-side action handler -/

/-- One file in (or below) the managed directory: `dirs` is the chain of
subdirectory names between the managed directory and the file (`[]` for a file
directly in the managed directory), `name` the file's base name, `content` its
bytes. -/
structure FSFile where
  dirs : List String
  name : String
  content : Bytes
deriving DecidableEq, Repr

/-- A managed directory: the (finite) collection of files below it. -/
abbrev Dir := List FSFile

/-- `path.exists(Path(self.directory, filename))` / the lookup of a plain
filename directly in the managed directory. -/
def findFile (d : Dir) (fn : String) : Option FSFile :=
  d.find? (fun f => f.dirs.isEmpty && f.name == fn)

/-- Module-level `enumerate_directory` (src/common/fileactions.py,
lines 93-108).  `directory_path.glob('**/*')` enumerates every entry at any
depth below the directory (`**` is pathlib's recursive pattern) and
`filter(Path.is_file, ...)` keeps the files, i.e. precisely the `FSFile`
records of the model; each yields
`dict(filename=f.name, file_size=..., sha256=hash_file(...))`. -/
def enumerate_directory (hashFn : Bytes → String) (d : Dir) (block_size : Nat) :
    List FileEntry :=
  d.map (fun f => ⟨f.name, f.content.length, hash_file hashFn f.content block_size⟩)

/-- The recipe payload of a FileRecipe response. -/
structure RecipeInfo where
  filename : String
  block_size : Nat
  hash_algorithm : String
  recipe : List (Nat × String)
deriving DecidableEq, Repr

/-- The `result` value a handler method produces: either a Python dict
`dict(action=..., msg=...)`, the enumeration payload, the recipe payload, or
the bare boolean `False` that `move_file` returns when the destination
exists. -/
inductive Response where
  | dictResp (action : Int) (msg : String)
  | enumResp (action : Int) (block_size : Nat) (file_info : List FileEntry)
  | recipeResp (action : Int) (recipe_info : RecipeInfo)
  | boolFalse
deriving DecidableEq, Repr

/-- Whether a `result` is a structured `dict(action=..., msg=...)` failure/status
payload (as opposed to the bare `False`). -/
def Response.isDictResp : Response → Bool
  | .dictResp _ _ => true
  | _ => false

/-- `dict(response=result)`: the wrapper `handle_request` puts around the
handler method's result. -/
structure WireResponse where
  response : Response
deriving DecidableEq, Repr

/-- Errors that escape `handle_request` as Python exceptions. -/
inductive HandlerErr where
  | fileActionHandlerException (msg : String)
  | unknownActionTypeError
  | malformedRequest
deriving DecidableEq, Repr

/-- `FileActionHandler.create_new_file` (src/common/fileactions.py,
lines 125-143).  Returns the `result` payload and the new directory state.
The message strings render the filename; the handler's directory path prefix
that Python's `Path.__format__` would include is not modelled. -/
def create_new_file (d : Dir) (filename : String) (file_data : Bytes) :
    Response × Dir :=
  match findFile d filename with
  | some _ =>
      (.dictResp 2 ("Filename " ++ filename ++ " already exists, cannot save as new"), d)
  | none =>
      (.dictResp 2 ("Successfully uploaded " ++ filename),
        d ++ [⟨[], filename, file_data⟩])

/-- `FileActionHandler.move_file` (src/common/fileactions.py, lines 145-159).
When the source is missing the method returns a `dict(action=..., msg=...)`;
when the destination already exists it returns the bare `False`; otherwise it
renames the file. -/
def move_file (d : Dir) (source_filename destination_filename : String) :
    Response × Dir :=
  match findFile d source_filename with
  | none =>
      (.dictResp 3 ("The source file " ++ source_filename ++
        " doesn't exist and cannot be renamed"), d)
  | some _ =>
      match findFile d destination_filename with
      | some _ => (.boolFalse, d)
      | none =>
          (.dictResp 3 ("Successfully moved file " ++ source_filename ++ " to " ++
            destination_filename),
            d.map (fun f =>
              if f.dirs.isEmpty && f.name == source_filename then
                ⟨f.dirs, destination_filename, f.content⟩
              else f))

/-- `FileActionHandler.delete_file` (src/common/fileactions.py,
lines 161-169). -/
def delete_file (d : Dir) (filename : String) : Response × Dir :=
  match findFile d filename with
  | some _ =>
      (.dictResp 4 ("Successfully deleted " ++ filename),
        d.filter (fun f => !(f.dirs.isEmpty && f.name == filename)))
  | none =>
      (.dictResp 4 ("Filename " ++ filename ++ " doesn't exist, cannot delete"), d)

/-- `FileActionHandler.create_file_recipe` (src/common/fileactions.py,
lines 185-204): raises `FileActionHandlerException` when the file does not
exist, otherwise returns the recipe payload built from
`create_hashed_block_list`. -/
def create_file_recipe (hashFn : Bytes → String) (d : Dir) (block_size : Nat)
    (filename : String) : Except HandlerErr Response :=
  match findFile d filename with
  | none =>
      .error (.fileActionHandlerException
        "Error the file doesn't exist, cannot create recipe")
  | some f =>
      .ok (.recipeResp 5
        ⟨filename, block_size, "sha256",
          create_hashed_block_list hashFn f.content block_size⟩)

/-- The `recipe_info` payload of an UpdateFile request: filename, block size
and the dictionary of changed blocks (block values carried as bytes; the
base64 transport encoding is the identity on them). -/
structure UpdatePayload where
  filename : String
  block_size : Nat
  blocks : List (Nat × Bytes)
deriving DecidableEq, Repr

/-- `FileActionHandler.update_file` (src/common/fileactions.py,
lines 206-232). -/
def update_file (d : Dir) (recipe : UpdatePayload) : Response × Dir :=
  match findFile d recipe.filename with
  | none =>
      (.dictResp 6 ("The source file " ++ recipe.filename ++
        " doesn't exist and cannot be updated"), d)
  | some f =>
      (.dictResp 6 ("Successfully updated " ++ recipe.filename),
        d.map (fun g =>
          if g.dirs.isEmpty && g.name == recipe.filename then
            ⟨g.dirs, g.name, update_file_content f.content recipe.block_size recipe.blocks⟩
          else g))

/-- The `data` member of a request, by action shape. -/
inductive ReqData where
  | enumerateDir
  | newFile (filename : String) (filedata : Option Bytes)
  | moveFile (source_filename destination_filename : String)
  | deleteFile (filename : String)
  | fileRecipe (filename : String)
  | updateFile (recipe_info : UpdatePayload)
deriving DecidableEq, Repr

/-- A decoded request: `int(request.get("action"))` and the `data` payload. -/
structure Request where
  action : Int
  data : ReqData
deriving DecidableEq, Repr

/-- `FileActionHandler.handle_request` (src/common/fileactions.py,
lines 234-276), with the handler state threaded explicitly: returns either the
wrapped response `dict(response=result)` or the Python exception that escapes,
together with the directory state afterwards.

The final `else` branch executes `result = dict(action, "Unknown file action
{}".format(action))`, and `dict` called with two positional arguments (an
`int` and a `str`) raises `TypeError`, modelled by `.unknownActionTypeError`.
A request whose `data` member does not carry the fields the selected branch
reads would raise `AttributeError`/`TypeError` in Python, modelled by
`.malformedRequest`. -/
def handle_request (hashFn : Bytes → String) (block_size : Nat) (d : Dir)
    (req : Request) : Except HandlerErr WireResponse × Dir :=
  if req.action = 1 then
    match req.data with
    | .enumerateDir =>
        (.ok ⟨.enumResp 1 block_size (enumerate_directory hashFn d block_size)⟩, d)
    | _ => (.error .malformedRequest, d)
  else if req.action = 2 then
    match req.data with
    | .newFile filename filedata =>
        -- `file_contents = b''` when `filedata` is `None`, else its base64 decode
        let file_contents := filedata.getD []
        let r := create_new_file d filename file_contents
        (.ok ⟨r.1⟩, r.2)
    | _ => (.error .malformedRequest, d)
  else if req.action = 3 then
    match req.data with
    | .moveFile src dst =>
        let r := move_file d src dst
        (.ok ⟨r.1⟩, r.2)
    | _ => (.error .malformedRequest, d)
  else if req.action = 4 then
    match req.data with
    | .deleteFile filename =>
        let r := delete_file d filename
        (.ok ⟨r.1⟩, r.2)
    | _ => (.error .malformedRequest, d)
  else if req.action = 5 then
    match req.data with
    | .fileRecipe filename =>
        match create_file_recipe hashFn d block_size filename with
        | .ok r => (.ok ⟨r⟩, d)
        | .error e => (.error e, d)
    | _ => (.error .malformedRequest, d)
  else if req.action = 6 then
    match req.data with
    | .updateFile recipe_info =>
        let r := update_file d recipe_info
        (.ok ⟨r.1⟩, r.2)
    | _ => (.error .malformedRequest, d)
  else
    (.error .unknownActionTypeError, d)

/-! ### Shape condition under which the update protocol is idempotent -/

/-- A list of blocks is *chunk-shaped* for block size `n` when every block
except the last has length exactly `n` and the last is non-empty and no longer
than `n`.  `chunks n` inverts concatenation exactly on such lists. -/
def ChunkShaped (n : Nat) (bs : List Bytes) : Prop :=
  (∀ b ∈ bs.dropLast, b.length = n) ∧
    (∀ b ∈ bs.getLast?.toList, 0 < b.length ∧ b.length ≤ n)

/-! ### Wire framing (`src/common/message.py`)

The frame header is the UTF-8 encoding of
`json.dumps({'byteorder': ..., 'content-encoding': ..., 'content-length': ...},
ensure_ascii=False)`.  For field values made of ASCII characters that need no
JSON escaping (no `"`, no `\`) — which covers every header the program ever
produces (`sys.byteorder` is `"little"`/`"big"`, the encoding is `"utf-8"`) —
that encoding is the literal character string built below, one byte per
character. -/

/-- UTF-8 bytes of an ASCII string (one byte per character; faithful exactly
when every character is ASCII, which the framing theorems assume). -/
def strBytes (s : String) : Bytes :=
  s.data.map Char.toNat

/-- Inverse of `strBytes` on ASCII byte lists. -/
def bytesToStr (b : Bytes) : String :=
  String.mk (b.map Char.ofNat)

/-- Fuel-indexed decimal printer (the digits of `m` in order, as produced by
Python's `str(int)` inside `json.dumps`). -/
def natDigitsAux : Nat → Nat → List Char
  | 0, _ => []
  | fuel + 1, m =>
      if m < 10 then [Nat.digitChar m]
      else natDigitsAux fuel (m / 10) ++ [Nat.digitChar (m % 10)]

/-- Decimal digit string of a natural number. -/
def natDigits (m : Nat) : List Char :=
  natDigitsAux (m + 1) m

/-- `json.dumps({'byteorder': bo, 'content-encoding': enc, 'content-length': n},
ensure_ascii=False)` with default separators: keys appear in insertion order. -/
def headerString (byteorder content_encoding : String) (content_length : Nat) :
    String :=
  "\x7b\"byteorder\": \"" ++ byteorder ++ "\"" ++
    ", \"content-encoding\": \"" ++ content_encoding ++ "\"" ++
    ", \"content-length\": " ++ String.mk (natDigits content_length) ++ "\x7d"

/-- `struct.pack(">H", m)`: two bytes, big-endian (the caller must have
`m ≤ 65535`, which the framing theorems assume — Python raises otherwise). -/
def u16be (m : Nat) : Bytes :=
  [m / 256, m % 256]

/-- `create_message` (src/common/message.py, lines 21-26): 2-byte big-endian
header length, then the encoded header, then the payload bytes. -/
def create_message (byteorder : String) (content_bytes : Bytes)
    (content_encoding : String) : Bytes :=
  let header_bytes := strBytes (headerString byteorder content_encoding content_bytes.length)
  u16be header_bytes.length ++ header_bytes ++ content_bytes

/-- `AbstractMessage.process_preheader` (src/common/message.py,
lines 109-113): once two bytes have accumulated, consume them as the
big-endian header length. -/
def process_preheader : Bytes → Option (Nat × Bytes)
  | b0 :: b1 :: rest => some (b0 * 256 + b1, rest)
  | _ => none

/-- Consume an expected literal byte sequence. -/
def dropToken (p : Bytes) (b : Bytes) : Option Bytes :=
  if b.take p.length = p then some (b.drop p.length) else none

/-- Consume bytes up to and including the next occurrence of `stop`,
returning the bytes before it. -/
def takeUntilByte (stop : Nat) : Bytes → Option (Bytes × Bytes)
  | [] => none
  | c :: rest =>
      if c = stop then some ([], rest)
      else (takeUntilByte stop rest).map (fun q => (c :: q.1, q.2))

/-- ASCII decimal digit. -/
def isDigitByte (c : Nat) : Bool :=
  48 ≤ c && c ≤ 57

/-- Value of an ASCII decimal digit string. -/
def parseDigits (ds : Bytes) : Nat :=
  ds.foldl (fun acc c => acc * 10 + (c - 48)) 0

/-- `decode_json` applied to the header bytes, specialised to the fixed object
shape `json.dumps` produced on the sending side: parse
`{"byteorder": "...", "content-encoding": "...", "content-length": N}` and
return the three required fields.  A byte string not of this shape fails
(`ProtocolError`); in particular a header missing one of the three required
fields fails, matching the explicit `required` check in `process_header`
(src/common/message.py, lines 115-127). -/
def parseHeaderBytes (b : Bytes) : Option (String × String × Nat) := do
  let b ← dropToken (strBytes "\x7b\"byteorder\": \"") b
  let (bo, b) ← takeUntilByte 34 b
  let b ← dropToken (strBytes ", \"content-encoding\": \"") b
  let (enc, b) ← takeUntilByte 34 b
  let b ← dropToken (strBytes ", \"content-length\": ") b
  let (num, b) ← takeUntilByte 125 b
  if b = [] ∧ num ≠ [] ∧ num.all isDigitByte then
    some (bytesToStr bo, bytesToStr enc, parseDigits num)
  else none

/-- `AbstractMessage.process_header` (src/common/message.py, lines 115-127):
once `header_length` bytes have accumulated, consume and parse them. -/
def process_header (header_length : Nat) (buf : Bytes) :
    Option ((String × String × Nat) × Bytes) :=
  if header_length ≤ buf.length then
    (parseHeaderBytes (buf.take header_length)).map
      (fun h => (h, buf.drop header_length))
  else none

/-- `process_request`/`process_response`: once `content-length` bytes have
accumulated, consume them as the payload. -/
def process_content (content_length : Nat) (buf : Bytes) :
    Option (Bytes × Bytes) :=
  if content_length ≤ buf.length then
    some (buf.take content_length, buf.drop content_length)
  else none

/-- The result of the two-stage decode: the three header fields, the payload
bytes, and whatever bytes remain buffered. -/
structure DecodedFrame where
  byteorder : String
  contentEncoding : String
  contentLength : Nat
  payload : Bytes
  leftover : Bytes
deriving DecidableEq, Repr

/-- The receiver's decode pipeline: 2-byte big-endian header length, header
bytes, then `content-length` payload bytes. -/
def decodeFrame (buf : Bytes) : Option DecodedFrame := do
  let (hlen, buf) ← process_preheader buf
  let ((bo, enc, clen), buf) ← process_header hlen buf
  let (payload, rest) ← process_content clen buf
  some ⟨bo, enc, clen, payload, rest⟩

/-- ASCII characters that JSON string encoding passes through unescaped. -/
abbrev PlainAsciiByte (c : Nat) : Prop :=
  c < 128 ∧ c ≠ 34 ∧ c ≠ 92

/-! ## Lemmas about the block codec -/

theorem chunksAux_congr {α : Type} (n : Nat) :
    ∀ (f₁ f₂ : Nat) (s : List α), s.length ≤ f₁ → s.length ≤ f₂ →
      chunksAux n f₁ s = chunksAux n f₂ s := by
  intro f₁
  induction f₁ with
  | zero =>
      intro f₂ s h₁ _
      have hs : s = [] := List.eq_nil_of_length_eq_zero (Nat.le_zero.mp h₁)
      subst hs
      cases f₂ <;> simp [chunksAux]
  | succ f ih =>
      intro f₂ s h₁ h₂
      cases s with
      | nil => cases f₂ <;> simp [chunksAux]
      | cons a t =>
          cases f₂ with
          | zero => simp at h₂
          | succ f' =>
              simp only [chunksAux]
              by_cases hn : n = 0
              · simp [hn]
              · simp only [if_neg hn]
                have hd : (List.drop n (a :: t)).length ≤ f := by
                  simp only [List.length_drop, List.length_cons] at *
                  omega
                have hd' : (List.drop n (a :: t)).length ≤ f' := by
                  simp only [List.length_drop, List.length_cons] at *
                  omega
                rw [ih f' _ hd hd']

theorem chunks_nil {α : Type} (n : Nat) : chunks n ([] : List α) = [] := rfl

theorem chunks_cons {α : Type} {n : Nat} (hn : 0 < n) (a : α) (t : List α) :
    chunks n (a :: t) = (a :: t).take n :: chunks n ((a :: t).drop n) := by
  show chunksAux n (t.length + 1) (a :: t) = _
  simp only [chunksAux, if_neg (Nat.pos_iff_ne_zero.mp hn)]
  congr 1
  exact chunksAux_congr n t.length (List.drop n (a :: t)).length _
    (by simp only [List.length_drop, List.length_cons]; omega) (Nat.le_refl _)

theorem chunks_flatten {α : Type} (n : Nat) (hn : 0 < n) (s : List α) :
    (chunks n s).flatten = s := by
  have key : ∀ (N : Nat) (s : List α), s.length ≤ N → (chunks n s).flatten = s := by
    intro N
    induction N with
    | zero =>
        intro s hs
        have : s = [] := List.eq_nil_of_length_eq_zero (Nat.le_zero.mp hs)
        subst this
        rfl
    | succ N ih =>
        intro s hs
        cases s with
        | nil => rfl
        | cons a t =>
            rw [chunks_cons hn, List.flatten_cons, ih _ (by
              simp only [List.length_drop, List.length_cons] at *
              omega)]
            exact List.take_append_drop n (a :: t)
  exact key s.length s (Nat.le_refl _)

/-- Every block `chunks` produces is non-empty, at most `n` long, and all but
the last are exactly `n` long. -/
theorem chunks_length_le {α : Type} (n : Nat) (s : List α) :
    ∀ b ∈ chunks n s, b.length ≤ n := by
  have key : ∀ (N : Nat) (s : List α), s.length ≤ N →
      ∀ b ∈ chunks n s, b.length ≤ n := by
    intro N
    induction N with
    | zero =>
        intro s hs
        have : s = [] := List.eq_nil_of_length_eq_zero (Nat.le_zero.mp hs)
        subst this
        intro b hb
        simp [chunks_nil] at hb
    | succ N ih =>
        intro s hs b hb
        cases s with
        | nil => simp [chunks_nil] at hb
        | cons a t =>
            rcases Nat.eq_zero_or_pos n with hn | hn
            · subst hn
              simp [chunks, chunksAux] at hb
            · rw [chunks_cons hn] at hb
              rcases List.mem_cons.mp hb with h | h
              · subst h
                simp [List.length_take_le]
              · exact ih _ (by
                  simp only [List.length_drop, List.length_cons] at *
                  omega) b h
  exact key s.length s (Nat.le_refl _)

theorem dictKeys_enumBlocks {α : Type} :
    ∀ (l : List α) (i : Nat), dictKeys (enumBlocks i l) = List.range' i l.length := by
  intro l
  induction l with
  | nil => intro i; rfl
  | cons b t ih =>
      intro i
      simp only [enumBlocks, dictKeys, List.map_cons, List.length_cons,
        List.range'_succ]
      exact congrArg (i :: ·) (ih (i + 1))

theorem dictGet_enumBlocks {α : Type} :
    ∀ (l : List α) (i j : Nat),
      dictGet (enumBlocks i l) j = if i ≤ j then l[j - i]? else none := by
  intro l
  induction l with
  | nil =>
      intro i j
      simp [enumBlocks, dictGet]
  | cons b t ih =>
      intro i j
      simp only [enumBlocks, dictGet, List.find?_cons]
      by_cases hij : i = j
      · subst hij
        simp
      · have : (i == j) = false := by simpa using hij
        rw [this]
        show dictGet (enumBlocks (i + 1) t) j = _
        rw [ih (i + 1) j]
        by_cases hle : i ≤ j
        · have h1 : i + 1 ≤ j := by omega
          rw [if_pos h1, if_pos hle]
          have : j - i = (j - (i + 1)) + 1 := by omega
          rw [this]
          simp
        · rw [if_neg (by omega), if_neg hle]

theorem mem_enumBlocks {α : Type} :
    ∀ (l : List α) (i : Nat) (p : Nat × α),
      p ∈ enumBlocks i l ↔ i ≤ p.1 ∧ l[p.1 - i]? = some p.2 := by
  intro l
  induction l with
  | nil =>
      intro i p
      simp [enumBlocks]
  | cons b t ih =>
      intro i p
      simp only [enumBlocks, List.mem_cons, ih (i + 1)]
      constructor
      · rintro (h | ⟨h1, h2⟩)
        · subst h
          simp
        · refine ⟨by omega, ?_⟩
          have : p.1 - i = (p.1 - (i + 1)) + 1 := by omega
          rw [this]
          simpa using h2
      · rintro ⟨h1, h2⟩
        by_cases hij : p.1 = i
        · left
          rw [hij] at h2
          simp only [Nat.sub_self] at h2
          simp only [List.getElem?_cons_zero] at h2
          cases p
          simp_all
        · right
          refine ⟨by omega, ?_⟩
          have : p.1 - i = (p.1 - (i + 1)) + 1 := by omega
          rw [this] at h2
          simpa using h2

theorem mem_sortedKeys {α : Type} (m : List (Nat × α)) (k : Nat) :
    k ∈ sortedKeys m ↔ k ∈ dictKeys m := by
  unfold sortedKeys
  rw [(List.perm_insertionSort _ _).mem_iff, List.mem_dedup]

theorem sortedKeys_nodup {α : Type} (m : List (Nat × α)) :
    (sortedKeys m).Nodup :=
  (List.perm_insertionSort _ _).nodup_iff.mpr (List.nodup_dedup _)

theorem sortedKeys_sorted {α : Type} (m : List (Nat × α)) :
    (sortedKeys m).Sorted (· ≤ ·) :=
  List.sorted_insertionSort _ _

/-- A dictionary whose key set is `{0, ..., K-1}` has `sorted(keys())`
equal to `range K`. -/
theorem sortedKeys_eq_range {α : Type} (m : List (Nat × α)) (K : Nat)
    (h : ∀ k, k ∈ dictKeys m ↔ k < K) : sortedKeys m = List.range K := by
  apply List.eq_of_perm_of_sorted _ (sortedKeys_sorted m) (List.sorted_le_range K)
  rw [List.perm_ext_iff_of_nodup (sortedKeys_nodup m) (List.nodup_range K)]
  intro k
  rw [mem_sortedKeys, List.mem_range]
  exact h k

/-- Writing out an index-enumerated block list reproduces the concatenation of
the blocks. -/
theorem create_file_from_blks_enumBlocks (bs : List Bytes) :
    create_file_from_blks (enumBlocks 0 bs) = bs.flatten := by
  unfold create_file_from_blks
  have hkeys : sortedKeys (enumBlocks 0 bs) = List.range bs.length := by
    apply sortedKeys_eq_range
    intro k
    rw [dictKeys_enumBlocks, ← List.range_eq_range', List.mem_range]
  rw [hkeys]
  congr 1
  apply List.ext_getElem (by simp)
  intro i h1 h2
  simp only [List.getElem_map, List.getElem_range]
  rw [dictGet_enumBlocks, if_pos (Nat.zero_le i), Nat.sub_zero]
  rw [List.getElem?_eq_getElem (by simpa using h2)]
  rfl

/-- **C6.** For every file `f` and every positive block size `n`, writing out
`create_block_list(f, n)` with `create_file_from_blks` reproduces `f`'s byte
content exactly. -/
theorem blocklist_roundtrip (s : Bytes) (n : Nat) (hn : 0 < n) :
    create_file_from_blks (create_block_list s n) = s := by
  rw [create_block_list, create_file_from_blks_enumBlocks, chunks_flatten n hn]

/-- Witness for `blocklist_roundtrip` at a concrete input. -/
theorem blocklist_roundtrip_witness :
    0 < 2 ∧ create_file_from_blks (create_block_list [10, 11, 12] 2) = [10, 11, 12] :=
  ⟨by decide, blocklist_roundtrip [10, 11, 12] 2 (by decide)⟩

/-! ## C1: the set of indices sent by `_update_file_by_recipe`

The locally computed `hashedBlocks` dictionary has `int` keys, but the recipe
reaching `_update_file_by_recipe` has passed through `decode_json`
(`on_response_callback` hands over the JSON-decoded response payload), so its
keys are the strings `"0"`, `"1"`, ... and the client never converts them
back to `int` (the server-side `update_file` does, with `int(k)`).  Python's
`src_blk_set.difference(dest_block_set)` therefore removes nothing — an
`(int, hash)` tuple never equals a `(str, hash)` tuple — and every local
block index is sent, including indices whose local hash equals the recipe's
hash at the same index.  The docstring's stated purpose ("calculates the
difference between the file recipe of a file in the client directory and the
same file in the server directory") and the spec's diff scheme are defeated
by the missing key conversion. -/

/-- **C1 (refuting evaluation).** The set of block indices the requester
places into the UpdateFile request is always the full set of local block
indices, whatever the received recipe contains; in particular, for the local
file `[97, 98]` at block size 1 and a received recipe whose hash at each
string index equals the local hash at the corresponding integer index, both
indices are sent even though the claim says neither may be. -/
theorem sent_indices_all_sent :
    (∀ (hashFn : Bytes → String) (s : Bytes) (n : Nat)
      (recipe : List (String × String)),
      sent_indices hashFn s n recipe =
        dictKeys (create_hashed_block_list hashFn s n)) ∧
    sent_indices (fun _ => "x") [97, 98] 1 [("0", "x"), ("1", "x")] = [0, 1] := by
  constructor
  · intro hashFn s n recipe
    -- the heterogeneous tuple comparison never matches, so the set
    -- difference keeps every local pair
    have hfilter : (create_hashed_block_list hashFn s n).filter
        (fun p => !(decide ((PyKey.pyInt p.1, p.2) ∈
          recipe.map (fun q => (PyKey.pyStr q.1, q.2))))) =
        create_hashed_block_list hashFn s n := by
      apply List.filter_eq_self.mpr
      intro p _
      simp only [Bool.not_eq_true', decide_eq_false_iff_not]
      intro hmem
      obtain ⟨q, -, heq⟩ := List.mem_map.mp hmem
      exact PyKey.noConfusion (congrArg Prod.fst heq)
    have hubk : update_blocks_keys hashFn s n recipe =
        dictKeys (create_hashed_block_list hashFn s n) := by
      unfold update_blocks_keys
      rw [hfilter]
      rfl
    have hkeys : ∀ p ∈ create_block_list s n,
        p.1 ∈ update_blocks_keys hashFn s n recipe := by
      intro p hp
      rw [hubk, create_hashed_block_list, dictKeys_enumBlocks, List.length_map]
      have hmem : p.1 ∈ dictKeys (create_block_list s n) :=
        List.mem_map.mpr ⟨p, hp, rfl⟩
      rwa [create_block_list, dictKeys_enumBlocks] at hmem
    have hblks : update_blks hashFn s n recipe = create_block_list s n := by
      unfold update_blks
      apply List.filter_eq_self.mpr
      intro p hp
      exact decide_eq_true (hkeys p hp)
    unfold sent_indices
    rw [hblks]
    show dictKeys (create_block_list s n) = _
    rw [create_block_list, create_hashed_block_list, dictKeys_enumBlocks,
      dictKeys_enumBlocks, List.length_map]
  · decide

/-! ## C9: unknown action codes terminate the handler -/

/-- **C9.** For every request whose action code is not one of the six
enumerated values 1..6, `handle_request` does not return a well-formed
response: the unknown-action branch's `dict(action, "...")` construction
raises `TypeError`, so the handler terminates with an error and the directory
is unchanged. -/
theorem handle_request_unknown_action (hashFn : Bytes → String)
    (block_size : Nat) (d : Dir) (req : Request)
    (h : req.action ≠ 1 ∧ req.action ≠ 2 ∧ req.action ≠ 3 ∧ req.action ≠ 4 ∧
      req.action ≠ 5 ∧ req.action ≠ 6) :
    handle_request hashFn block_size d req = (.error .unknownActionTypeError, d) := by
  obtain ⟨h1, h2, h3, h4, h5, h6⟩ := h
  unfold handle_request
  simp [h1, h2, h3, h4, h5, h6]

/-- Witness for `handle_request_unknown_action` at action code 7. -/
theorem handle_request_unknown_action_witness :
    ((7 : Int) ≠ 1 ∧ (7 : Int) ≠ 2 ∧ (7 : Int) ≠ 3 ∧ (7 : Int) ≠ 4 ∧
      (7 : Int) ≠ 5 ∧ (7 : Int) ≠ 6) ∧
    handle_request (fun _ => "") 4096 [] ⟨7, .enumerateDir⟩ =
      (.error .unknownActionTypeError, []) :=
  ⟨by decide,
    handle_request_unknown_action (fun _ => "") 4096 [] ⟨7, .enumerateDir⟩ (by decide)⟩

/-! ## C10: NewFile with absent filedata creates a zero-byte file -/

/-- **C10.** A NewFile request whose `filedata` field is `None`, naming a file
that does not yet exist, creates a zero-byte file with that name and returns a
success response. -/
theorem handle_request_newfile_no_data (hashFn : Bytes → String)
    (block_size : Nat) (d : Dir) (fn : String) (h : findFile d fn = none) :
    handle_request hashFn block_size d ⟨2, .newFile fn none⟩ =
      (.ok ⟨.dictResp 2 ("Successfully uploaded " ++ fn)⟩, d ++ [⟨[], fn, []⟩]) := by
  unfold handle_request
  simp only [show (2 : Int) ≠ 1 by decide, if_neg, if_pos, reduceIte]
  unfold create_new_file
  rw [h]
  rfl

/-- Witness for `handle_request_newfile_no_data` on an empty directory. -/
theorem handle_request_newfile_no_data_witness :
    findFile [] "a.txt" = none ∧
    handle_request (fun _ => "") 4096 [] ⟨2, .newFile "a.txt" none⟩ =
      (.ok ⟨.dictResp 2 "Successfully uploaded a.txt"⟩, [⟨[], "a.txt", []⟩]) :=
  ⟨rfl, handle_request_newfile_no_data (fun _ => "") 4096 [] "a.txt" rfl⟩

/-! ## C7: FileRecipe on a missing file raises instead of responding -/

/-- **C7.** A FileRecipe request naming a file that does not exist yields no
structured failure response: `create_file_recipe` raises
`FileActionHandlerException`, which `handle_request` does not catch, and the
directory is unchanged. -/
theorem handle_request_recipe_missing (hashFn : Bytes → String)
    (block_size : Nat) (d : Dir) (fn : String) (h : findFile d fn = none) :
    handle_request hashFn block_size d ⟨5, .fileRecipe fn⟩ =
      (.error (.fileActionHandlerException
        "Error the file doesn't exist, cannot create recipe"), d) := by
  unfold handle_request
  simp only [show (5 : Int) ≠ 1 by decide, show (5 : Int) ≠ 2 by decide,
    show (5 : Int) ≠ 3 by decide, show (5 : Int) ≠ 4 by decide, if_neg, if_pos,
    reduceIte]
  unfold create_file_recipe
  rw [h]

/-- Witness for `handle_request_recipe_missing` on an empty directory. -/
theorem handle_request_recipe_missing_witness :
    findFile [] "missing.txt" = none ∧
    handle_request (fun _ => "") 4096 [] ⟨5, .fileRecipe "missing.txt"⟩ =
      (.error (.fileActionHandlerException
        "Error the file doesn't exist, cannot create recipe"), []) :=
  ⟨rfl, handle_request_recipe_missing (fun _ => "") 4096 [] "missing.txt" rfl⟩

/-! ## C2: enumeration is in fact recursive

`Path.glob('**/*')` matches every entry at any depth below the directory, so
the listing includes files inside subdirectories — contradicting both the
claim and the function's own docstring ("This function is not recursive and
will only read the files in the directory specified"). -/

/-- **C2 (refuting evaluation).** A managed directory whose only file lives in
the subdirectory `sub` nevertheless yields that file in the enumeration
returned by `enumerate_directory`: the claim that a file located in a
subdirectory never appears in the returned `file_info` sequence fails on this
input. -/
theorem enumerate_directory_recursive_bug :
    enumerate_directory (fun _ => "h") [⟨["sub"], "a.txt", [1, 2]⟩] 4096 =
      [⟨"a.txt", 2, "h"⟩] := by
  decide

/-! ## C3: MoveFile failure modes -/

/-- **C3 (counterexample).** When the destination filename already exists,
the failure is *not* converted into a structured failure response carrying the
action code and a message: `move_file` returns the bare `False`, which
`handle_request` wraps as `dict(response=False)`. -/
theorem move_file_claim_counterexample :
    handle_request (fun _ => "") 4096 [⟨[], "a", [1]⟩, ⟨[], "b", [2]⟩]
        ⟨3, .moveFile "a" "b"⟩ =
      (.ok ⟨.boolFalse⟩, [⟨[], "a", [1]⟩, ⟨[], "b", [2]⟩]) ∧
    Response.isDictResp .boolFalse = false := by
  constructor
  · rfl
  · rfl

/-- **C3 (amended).** For every MoveFile request: if the source filename is
missing, the failure is converted into a structured failure response carrying
the action code and a message; if the destination filename already exists, the
operation fails with the bare value `False` wrapped as the response payload
(not a structured `dict(action=..., msg=...)`); in both failure cases the
directory contents are unchanged. -/
theorem move_file_failures (hashFn : Bytes → String) (block_size : Nat)
    (d : Dir) (src dst : String) :
    (findFile d src = none →
      handle_request hashFn block_size d ⟨3, .moveFile src dst⟩ =
        (.ok ⟨.dictResp 3 ("The source file " ++ src ++
          " doesn't exist and cannot be renamed")⟩, d)) ∧
    (∀ f g, findFile d src = some f → findFile d dst = some g →
      handle_request hashFn block_size d ⟨3, .moveFile src dst⟩ =
        (.ok ⟨.boolFalse⟩, d)) := by
  constructor
  · intro h
    unfold handle_request
    simp only [show (3 : Int) ≠ 1 by decide, show (3 : Int) ≠ 2 by decide,
      if_neg, if_pos, reduceIte]
    unfold move_file
    rw [h]
  · intro f g hf hg
    unfold handle_request
    simp only [show (3 : Int) ≠ 1 by decide, show (3 : Int) ≠ 2 by decide,
      if_neg, if_pos, reduceIte]
    unfold move_file
    rw [hf, hg]

/-- Witness for `move_file_failures`: the source-missing case on an empty
directory and the destination-exists case on a two-file directory. -/
theorem move_file_failures_witness :
    handle_request (fun _ => "") 4096 [] ⟨3, .moveFile "a" "b"⟩ =
      (.ok ⟨.dictResp 3 "The source file a doesn't exist and cannot be renamed"⟩, []) ∧
    handle_request (fun _ => "") 4096 [⟨[], "a", [1]⟩, ⟨[], "b", [2]⟩]
        ⟨3, .moveFile "a" "b"⟩ =
      (.ok ⟨.boolFalse⟩, [⟨[], "a", [1]⟩, ⟨[], "b", [2]⟩]) :=
  ⟨(move_file_failures (fun _ => "") 4096 [] "a" "b").1 rfl,
    (move_file_failures (fun _ => "") 4096 [⟨[], "a", [1]⟩, ⟨[], "b", [2]⟩]
      "a" "b").2 ⟨[], "a", [1]⟩ ⟨[], "b", [2]⟩ (by decide) (by decide)⟩

/-! ## C4: the reconciliation partition -/

theorem ExactlyOne.intro₁ {a b c d : Prop} (ha : a) (hb : ¬b) (hc : ¬c)
    (hd : ¬d) : ExactlyOne a b c d :=
  ⟨Or.inl ha, fun h => hb h.2, fun h => hc h.2, fun h => hd h.2,
    fun h => hb h.1, fun h => hb h.1, fun h => hc h.1⟩

theorem ExactlyOne.intro₂ {a b c d : Prop} (hb : b) (ha : ¬a) (hc : ¬c)
    (hd : ¬d) : ExactlyOne a b c d :=
  ⟨Or.inr (Or.inl hb), fun h => ha h.1, fun h => ha h.1, fun h => ha h.1,
    fun h => hc h.2, fun h => hd h.2, fun h => hc h.1⟩

theorem ExactlyOne.intro₃ {a b c d : Prop} (hc : c) (ha : ¬a) (hb : ¬b)
    (hd : ¬d) : ExactlyOne a b c d :=
  ⟨Or.inr (Or.inr (Or.inl hc)), fun h => ha h.1, fun h => ha h.1,
    fun h => ha h.1, fun h => hb h.1, fun h => hb h.1, fun h => hd h.2⟩

theorem ExactlyOne.intro₄ {a b c d : Prop} (hd : d) (ha : ¬a) (hb : ¬b)
    (hc : ¬c) : ExactlyOne a b c d :=
  ⟨Or.inr (Or.inr (Or.inr hd)), fun h => ha h.1, fun h => ha h.1,
    fun h => ha h.1, fun h => hb h.1, fun h => hb h.1, fun h => hc h.1⟩

theorem entries_eq_of_nodup_names {l : List FileEntry} (h : (names l).Nodup)
    {e₁ e₂ : FileEntry} (h₁ : e₁ ∈ l) (h₂ : e₂ ∈ l)
    (hfn : e₁.filename = e₂.filename) : e₁ = e₂ := by
  unfold names at h
  exact List.inj_on_of_nodup_map h h₁ h₂ hfn

theorem mem_names_same_on_both (remote locl : List FileEntry) (x : String) :
    x ∈ names (same_on_both remote locl) ↔
      ∃ e, e ∈ remote ∧ e ∈ locl ∧ e.filename = x := by
  simp [names, same_on_both, List.mem_filter, and_assoc]

theorem mem_names_diff_on_remote (remote locl : List FileEntry) (x : String) :
    x ∈ names (diff_on_remote remote locl) ↔
      ∃ e, e ∈ remote ∧ e ∉ locl ∧ e.filename = x := by
  simp [names, diff_on_remote, List.mem_filter, and_assoc]

theorem mem_names_diff_on_local (remote locl : List FileEntry) (x : String) :
    x ∈ names (diff_on_local remote locl) ↔
      ∃ e, e ∈ locl ∧ e ∉ remote ∧ e.filename = x := by
  simp [names, diff_on_local, List.mem_filter, and_assoc]

theorem mem_names_on_both_different (remote locl : List FileEntry) (x : String) :
    x ∈ names (on_both_different remote locl) ↔
      (∃ e, e ∈ locl ∧ e ∉ remote ∧ e.filename = x) ∧
        (∃ e, e ∈ remote ∧ e ∉ locl ∧ e.filename = x) := by
  rw [show names (on_both_different remote locl) =
      (on_both_different remote locl).map (·.filename) from rfl]
  rw [← mem_names_diff_on_remote remote locl x]
  constructor
  · intro hx
    obtain ⟨e, he, hfn⟩ := List.mem_map.mp hx
    rw [on_both_different, List.mem_filter] at he
    obtain ⟨he1, he2⟩ := he
    obtain ⟨e', he', hne', hfn'⟩ :=
      (mem_names_diff_on_local remote locl e.filename).mp
        (List.mem_map.mpr ⟨e, he1, rfl⟩)
    refine ⟨⟨e', he', hne', hfn'.trans hfn⟩, ?_⟩
    have hd := of_decide_eq_true he2
    rwa [hfn] at hd
  · rintro ⟨⟨e, he, hne, hfn⟩, hdr⟩
    apply List.mem_map.mpr
    refine ⟨e, ?_, hfn⟩
    rw [on_both_different, List.mem_filter]
    constructor
    · rw [diff_on_local, List.mem_filter]
      simp [he, hne]
    · rw [hfn]
      exact decide_eq_true hdr

theorem mem_names_on_local_only (remote locl : List FileEntry) (x : String) :
    x ∈ names (on_local_only remote locl) ↔
      (∃ e, e ∈ locl ∧ e ∉ remote ∧ e.filename = x) ∧
        ¬(∃ e, e ∈ remote ∧ e ∉ locl ∧ e.filename = x) := by
  rw [show names (on_local_only remote locl) =
      (on_local_only remote locl).map (·.filename) from rfl]
  rw [← mem_names_diff_on_remote remote locl x]
  constructor
  · intro hx
    obtain ⟨e, he, hfn⟩ := List.mem_map.mp hx
    rw [on_local_only, List.mem_filter] at he
    obtain ⟨he1, he2⟩ := he
    obtain ⟨e', he', hne', hfn'⟩ :=
      (mem_names_diff_on_local remote locl e.filename).mp
        (List.mem_map.mpr ⟨e, he1, rfl⟩)
    refine ⟨⟨e', he', hne', hfn'.trans hfn⟩, ?_⟩
    have hd := of_decide_eq_false (by simpa using he2)
    rwa [hfn] at hd
  · rintro ⟨⟨e, he, hne, hfn⟩, hdr⟩
    apply List.mem_map.mpr
    refine ⟨e, ?_, hfn⟩
    rw [on_local_only, List.mem_filter]
    constructor
    · rw [diff_on_local, List.mem_filter]
      simp [he, hne]
    · rw [hfn]
      simp only [Bool.not_eq_true']
      exact decide_eq_false hdr

theorem mem_names_on_remote_only (remote locl : List FileEntry) (x : String) :
    x ∈ names (on_remote_only remote locl) ↔
      (∃ e, e ∈ remote ∧ e ∉ locl ∧ e.filename = x) ∧
        ¬(∃ e, e ∈ locl ∧ e ∉ remote ∧ e.filename = x) := by
  rw [show names (on_remote_only remote locl) =
      (on_remote_only remote locl).map (·.filename) from rfl]
  rw [← mem_names_diff_on_local remote locl x]
  constructor
  · intro hx
    obtain ⟨e, he, hfn⟩ := List.mem_map.mp hx
    rw [on_remote_only, List.mem_filter] at he
    obtain ⟨he1, he2⟩ := he
    obtain ⟨e', he', hne', hfn'⟩ :=
      (mem_names_diff_on_remote remote locl e.filename).mp
        (List.mem_map.mpr ⟨e, he1, rfl⟩)
    refine ⟨⟨e', he', hne', hfn'.trans hfn⟩, ?_⟩
    have hd := of_decide_eq_false (by simpa using he2)
    rwa [hfn] at hd
  · rintro ⟨⟨e, he, hne, hfn⟩, hdr⟩
    apply List.mem_map.mpr
    refine ⟨e, ?_, hfn⟩
    rw [on_remote_only, List.mem_filter]
    constructor
    · rw [diff_on_remote, List.mem_filter]
      simp [he, hne]
    · rw [hfn]
      simp only [Bool.not_eq_true']
      exact decide_eq_false hdr

/-- **C4.** For listings with unique filenames on each side, the
reconciliation partition is exhaustive and disjoint: every filename in the
union of the two listings falls into exactly one of
{same, update (`on_both_different`), delete-remote (`on_remote_only`),
upload (`on_local_only`)}; a filename on both sides with differing entries is
classified update, a filename present only remotely delete-remote, a filename
present only locally upload, and identical entries same. -/
theorem directory_synch_partition (remote locl : List FileEntry)
    (hr : (names remote).Nodup) (hl : (names locl).Nodup) (x : String)
    (hx : x ∈ names locl ∨ x ∈ names remote) :
    ExactlyOne (x ∈ names (same_on_both remote locl))
      (x ∈ names (on_both_different remote locl))
      (x ∈ names (on_remote_only remote locl))
      (x ∈ names (on_local_only remote locl)) ∧
    ((∃ e, e ∈ locl ∧ e ∈ remote ∧ e.filename = x) →
      x ∈ names (same_on_both remote locl)) ∧
    ((∃ e e', e ∈ locl ∧ e' ∈ remote ∧ e.filename = x ∧ e'.filename = x ∧ e ≠ e') →
      x ∈ names (on_both_different remote locl)) ∧
    ((x ∈ names remote ∧ x ∉ names locl) →
      x ∈ names (on_remote_only remote locl)) ∧
    ((x ∈ names locl ∧ x ∉ names remote) →
      x ∈ names (on_local_only remote locl)) := by
  have hmx : ∀ {ll : List FileEntry}, x ∈ names ll →
      ∃ e, e ∈ ll ∧ e.filename = x := by
    intro ll h
    obtain ⟨e, he, hfn⟩ := List.mem_map.mp h
    exact ⟨e, he, hfn⟩
  refine ⟨?_, ?_, ?_, ?_, ?_⟩
  · -- the exhaustive, disjoint partition
    rw [mem_names_same_on_both, mem_names_on_both_different,
      mem_names_on_remote_only, mem_names_on_local_only]
    by_cases hxl : ∃ e, e ∈ locl ∧ e.filename = x
    · obtain ⟨el, hel, hfnl⟩ := hxl
      by_cases hxr : ∃ e, e ∈ remote ∧ e.filename = x
      · obtain ⟨er, her, hfnr⟩ := hxr
        by_cases heq : er ∈ locl
        · -- identical entry on both sides: *same* only
          have hnotDL : ¬∃ e, e ∈ locl ∧ e ∉ remote ∧ e.filename = x := by
            rintro ⟨e, he, hne, hfn⟩
            have heer : e = er :=
              entries_eq_of_nodup_names hl he heq (hfn.trans hfnr.symm)
            rw [heer] at hne
            exact hne her
          have hnotDR : ¬∃ e, e ∈ remote ∧ e ∉ locl ∧ e.filename = x := by
            rintro ⟨e, he, hne, hfn⟩
            have heer : e = er :=
              entries_eq_of_nodup_names hr he her (hfn.trans hfnr.symm)
            rw [heer] at hne
            exact hne heq
          exact ExactlyOne.intro₁ ⟨er, her, heq, hfnr⟩
            (fun h => hnotDL h.1) (fun h => hnotDR h.1) (fun h => hnotDL h.1)
        · -- both sides with differing entries: *update* only
          have helr : el ∉ remote := by
            intro hin
            have : el = er :=
              entries_eq_of_nodup_names hr hin her (hfnl.trans hfnr.symm)
            rw [this] at hel
            exact heq hel
          have hDL : ∃ e, e ∈ locl ∧ e ∉ remote ∧ e.filename = x :=
            ⟨el, hel, helr, hfnl⟩
          have hDR : ∃ e, e ∈ remote ∧ e ∉ locl ∧ e.filename = x :=
            ⟨er, her, heq, hfnr⟩
          have hnotA : ¬∃ e, e ∈ remote ∧ e ∈ locl ∧ e.filename = x := by
            rintro ⟨e, he, hin, hfn⟩
            have heer : e = er :=
              entries_eq_of_nodup_names hr he her (hfn.trans hfnr.symm)
            rw [heer] at hin
            exact heq hin
          exact ExactlyOne.intro₂ ⟨hDL, hDR⟩ hnotA
            (fun h => h.2 hDL) (fun h => h.2 hDR)
      · -- present only locally: *upload* only
        have helr : el ∉ remote := fun hin => hxr ⟨el, hin, hfnl⟩
        have hnotDR : ¬∃ e, e ∈ remote ∧ e ∉ locl ∧ e.filename = x := by
          rintro ⟨e, he, _, hfn⟩
          exact hxr ⟨e, he, hfn⟩
        have hnotA : ¬∃ e, e ∈ remote ∧ e ∈ locl ∧ e.filename = x := by
          rintro ⟨e, he, _, hfn⟩
          exact hxr ⟨e, he, hfn⟩
        exact ExactlyOne.intro₄ ⟨⟨el, hel, helr, hfnl⟩, hnotDR⟩ hnotA
          (fun h => hnotDR h.2) (fun h => hnotDR h.1)
    · -- present only remotely: *delete-remote* only
      obtain ⟨er, her, hfnr⟩ : ∃ e, e ∈ remote ∧ e.filename = x := by
        rcases hx with h | h
        · exact absurd (hmx h) hxl
        · exact hmx h
      have herl : er ∉ locl := fun hin => hxl ⟨er, hin, hfnr⟩
      have hnotDL : ¬∃ e, e ∈ locl ∧ e ∉ remote ∧ e.filename = x := by
        rintro ⟨e, he, _, hfn⟩
        exact hxl ⟨e, he, hfn⟩
      have hnotA : ¬∃ e, e ∈ remote ∧ e ∈ locl ∧ e.filename = x := by
        rintro ⟨e, _, hin, hfn⟩
        exact hxl ⟨e, hin, hfn⟩
      exact ExactlyOne.intro₃ ⟨⟨er, her, herl, hfnr⟩, hnotDL⟩ hnotA
        (fun h => hnotDL h.1) (fun h => hnotDL h.1)
  · -- identical entries are classified same
    rintro ⟨e, hel, her, hfn⟩
    exact (mem_names_same_on_both remote locl x).mpr ⟨e, her, hel, hfn⟩
  · -- a filename on both sides with differing entries is classified update
    rintro ⟨e, e', hel, her', hfn, hfn', hne⟩
    have henr : e ∉ remote := fun hin =>
      hne (entries_eq_of_nodup_names hr hin her' (hfn.trans hfn'.symm))
    have henl : e' ∉ locl := fun hin =>
      hne (entries_eq_of_nodup_names hl hel hin (hfn.trans hfn'.symm))
    exact (mem_names_on_both_different remote locl x).mpr
      ⟨⟨e, hel, henr, hfn⟩, ⟨e', her', henl, hfn'⟩⟩
  · -- a filename present only remotely is classified delete-remote
    rintro ⟨hxr, hxnl⟩
    obtain ⟨e, he, hfn⟩ := hmx hxr
    have hne : e ∉ locl := fun hin => hxnl (List.mem_map.mpr ⟨e, hin, hfn⟩)
    refine (mem_names_on_remote_only remote locl x).mpr ⟨⟨e, he, hne, hfn⟩, ?_⟩
    rintro ⟨e', he', _, hfn'⟩
    exact hxnl (List.mem_map.mpr ⟨e', he', hfn'⟩)
  · -- a filename present only locally is classified upload
    rintro ⟨hxl', hxnr⟩
    obtain ⟨e, he, hfn⟩ := hmx hxl'
    have hne : e ∉ remote := fun hin => hxnr (List.mem_map.mpr ⟨e, hin, hfn⟩)
    refine (mem_names_on_local_only remote locl x).mpr ⟨⟨e, he, hne, hfn⟩, ?_⟩
    rintro ⟨e', he', _, hfn'⟩
    exact hxnr (List.mem_map.mpr ⟨e', he', hfn'⟩)

/-- Witness for `directory_synch_partition`: local has `x.txt` with hash A,
remote has `x.txt` with hash B and `y.txt` with hash C; `x.txt` is classified
update (and nothing else). -/
theorem directory_synch_partition_witness :
    ((names ([⟨"x.txt", 1, "hashB"⟩, ⟨"y.txt", 2, "hashC"⟩] : List FileEntry)).Nodup ∧
      (names ([⟨"x.txt", 1, "hashA"⟩] : List FileEntry)).Nodup ∧
      ("x.txt" ∈ names ([⟨"x.txt", 1, "hashA"⟩] : List FileEntry) ∨
        "x.txt" ∈ names ([⟨"x.txt", 1, "hashB"⟩, ⟨"y.txt", 2, "hashC"⟩] : List FileEntry))) ∧
    (ExactlyOne
      ("x.txt" ∈ names (same_on_both ([⟨"x.txt", 1, "hashB"⟩, ⟨"y.txt", 2, "hashC"⟩] : List FileEntry)
        ([⟨"x.txt", 1, "hashA"⟩] : List FileEntry)))
      ("x.txt" ∈ names (on_both_different ([⟨"x.txt", 1, "hashB"⟩, ⟨"y.txt", 2, "hashC"⟩] : List FileEntry)
        ([⟨"x.txt", 1, "hashA"⟩] : List FileEntry)))
      ("x.txt" ∈ names (on_remote_only ([⟨"x.txt", 1, "hashB"⟩, ⟨"y.txt", 2, "hashC"⟩] : List FileEntry)
        ([⟨"x.txt", 1, "hashA"⟩] : List FileEntry)))
      ("x.txt" ∈ names (on_local_only ([⟨"x.txt", 1, "hashB"⟩, ⟨"y.txt", 2, "hashC"⟩] : List FileEntry)
        ([⟨"x.txt", 1, "hashA"⟩] : List FileEntry))) ∧
    ((∃ e, e ∈ ([⟨"x.txt", 1, "hashA"⟩] : List FileEntry) ∧
        e ∈ ([⟨"x.txt", 1, "hashB"⟩, ⟨"y.txt", 2, "hashC"⟩] : List FileEntry) ∧ e.filename = "x.txt") →
      "x.txt" ∈ names (same_on_both ([⟨"x.txt", 1, "hashB"⟩, ⟨"y.txt", 2, "hashC"⟩] : List FileEntry)
        ([⟨"x.txt", 1, "hashA"⟩] : List FileEntry))) ∧
    ((∃ e e', e ∈ ([⟨"x.txt", 1, "hashA"⟩] : List FileEntry) ∧
        e' ∈ ([⟨"x.txt", 1, "hashB"⟩, ⟨"y.txt", 2, "hashC"⟩] : List FileEntry) ∧
        e.filename = "x.txt" ∧ e'.filename = "x.txt" ∧ e ≠ e') →
      "x.txt" ∈ names (on_both_different ([⟨"x.txt", 1, "hashB"⟩, ⟨"y.txt", 2, "hashC"⟩] : List FileEntry)
        ([⟨"x.txt", 1, "hashA"⟩] : List FileEntry))) ∧
    (("x.txt" ∈ names ([⟨"x.txt", 1, "hashB"⟩, ⟨"y.txt", 2, "hashC"⟩] : List FileEntry) ∧
        "x.txt" ∉ names ([⟨"x.txt", 1, "hashA"⟩] : List FileEntry)) →
      "x.txt" ∈ names (on_remote_only ([⟨"x.txt", 1, "hashB"⟩, ⟨"y.txt", 2, "hashC"⟩] : List FileEntry)
        ([⟨"x.txt", 1, "hashA"⟩] : List FileEntry))) ∧
    (("x.txt" ∈ names ([⟨"x.txt", 1, "hashA"⟩] : List FileEntry) ∧
        "x.txt" ∉ names ([⟨"x.txt", 1, "hashB"⟩, ⟨"y.txt", 2, "hashC"⟩] : List FileEntry)) →
      "x.txt" ∈ names (on_local_only ([⟨"x.txt", 1, "hashB"⟩, ⟨"y.txt", 2, "hashC"⟩] : List FileEntry)
        ([⟨"x.txt", 1, "hashA"⟩] : List FileEntry)))) :=
  ⟨⟨by decide, by decide, by decide⟩,
    directory_synch_partition ([⟨"x.txt", 1, "hashB"⟩, ⟨"y.txt", 2, "hashC"⟩] : List FileEntry)
      ([⟨"x.txt", 1, "hashA"⟩] : List FileEntry) (by decide) (by decide) "x.txt" (by decide)⟩

/-! ## C8: idempotence of the update protocol -/

theorem dictGet_nil {α : Type} (k : Nat) : dictGet ([] : List (Nat × α)) k = none := rfl

theorem dictGet_cons {α : Type} (p : Nat × α) (m : List (Nat × α)) (k : Nat) :
    dictGet (p :: m) k = if p.1 = k then some p.2 else dictGet m k := by
  unfold dictGet
  rw [List.find?_cons]
  cases h : (p.1 == k) with
  | true => simp [beq_iff_eq.mp h]
  | false =>
      have : p.1 ≠ k := by simpa using h
      simp [this]

theorem dictGet_append {α : Type} (xs ys : List (Nat × α)) (k : Nat) :
    dictGet (xs ++ ys) k = (dictGet xs k).or (dictGet ys k) := by
  induction xs with
  | nil => simp [dictGet]
  | cons p xs ih =>
      rw [List.cons_append, dictGet_cons, dictGet_cons]
      by_cases h : p.1 = k
      · simp [h]
      · simp [h, ih]

theorem dictGet_mapValues {α β : Type} (a : List (Nat × α)) (g : Nat → α → β)
    (k : Nat) :
    dictGet (a.map (fun p => (p.1, g p.1 p.2))) k = (dictGet a k).map (g k) := by
  induction a with
  | nil => rfl
  | cons p a ih =>
      rw [List.map_cons, dictGet_cons, dictGet_cons]
      by_cases h : p.1 = k
      · subst h
        simp
      · simp [h, ih]

theorem dictGet_filterKeys {α : Type} (u : List (Nat × α)) (q : Nat → Bool)
    (k : Nat) :
    dictGet (u.filter (fun p => q p.1)) k = if q k then dictGet u k else none := by
  induction u with
  | nil => simp [dictGet]
  | cons p u ih =>
      by_cases hq : q p.1
      · rw [List.filter_cons_of_pos (by simpa using hq), dictGet_cons]
        by_cases h : p.1 = k
        · subst h
          simp [hq, dictGet_cons]
        · rw [if_neg h, ih, dictGet_cons, if_neg h]
      · rw [List.filter_cons_of_neg (by simpa using hq), ih, dictGet_cons]
        by_cases h : p.1 = k
        · subst h
          simp [hq]
        · rw [if_neg h]

theorem mem_dictKeys_isSome {α : Type} (a : List (Nat × α)) (k : Nat) :
    k ∈ dictKeys a ↔ (dictGet a k).isSome := by
  induction a with
  | nil => simp [dictKeys, dictGet]
  | cons p a ih =>
      rw [dictKeys, List.map_cons, List.mem_cons, dictGet_cons]
      by_cases h : p.1 = k
      · simp [h]
      · have : ¬(k = p.1) := fun hk => h hk.symm
        simp only [this, false_or, if_neg h]
        exact ih

theorem dictGet_pythonMerge {α : Type} (a u : List (Nat × α)) (k : Nat) :
    dictGet (pythonMerge a u) k = (dictGet u k).or (dictGet a k) := by
  unfold pythonMerge
  rw [dictGet_append, dictGet_mapValues a (fun j v => (dictGet u j).getD v) k,
    dictGet_filterKeys u (fun j => !(decide (j ∈ dictKeys a))) k]
  by_cases hk : k ∈ dictKeys a
  · obtain ⟨v, hv⟩ := Option.isSome_iff_exists.mp ((mem_dictKeys_isSome a k).mp hk)
    have hq : (!(decide (k ∈ dictKeys a))) = false := by simp [hk]
    rw [hv, hq]
    cases hu : dictGet u k <;> simp [hu]
  · have ha : dictGet a k = none := by
      cases h : dictGet a k with
      | none => rfl
      | some v => exact absurd ((mem_dictKeys_isSome a k).mpr (by simp [h])) hk
    rw [ha]
    simp [hk]

theorem mem_dictKeys_pythonMerge {α : Type} (a u : List (Nat × α)) (k : Nat) :
    k ∈ dictKeys (pythonMerge a u) ↔ k ∈ dictKeys a ∨ k ∈ dictKeys u := by
  rw [mem_dictKeys_isSome, dictGet_pythonMerge, mem_dictKeys_isSome,
    mem_dictKeys_isSome]
  cases dictGet u k <;> cases dictGet a k <;> simp [Option.or]

theorem chunkShaped_tail {n : Nat} {b : Bytes} {rest : List Bytes}
    (h : ChunkShaped n (b :: rest)) (hne : rest ≠ []) : ChunkShaped n rest := by
  obtain ⟨h1, h2⟩ := h
  constructor
  · intro x hx
    apply h1
    cases rest with
    | nil => exact absurd rfl hne
    | cons c r =>
        rw [List.dropLast_cons₂]
        exact List.mem_cons_of_mem _ hx
  · intro x hx
    apply h2
    cases rest with
    | nil => exact absurd rfl hne
    | cons c r => rwa [List.getLast?_cons_cons]

theorem chunkShaped_head_len {n : Nat} {b : Bytes} {rest : List Bytes}
    (h : ChunkShaped n (b :: rest)) (hne : rest ≠ []) : b.length = n := by
  apply h.1
  cases rest with
  | nil => exact absurd rfl hne
  | cons c r =>
      rw [List.dropLast_cons₂]
      exact List.mem_cons_self _ _

theorem chunks_ne_nil {α : Type} {n : Nat} (hn : 0 < n) (s : List α)
    (hs : s ≠ []) : chunks n s = s.take n :: chunks n (s.drop n) := by
  cases s with
  | nil => exact absurd rfl hs
  | cons a t => exact chunks_cons hn a t

/-- `chunks` inverts concatenation on chunk-shaped block lists. -/
theorem chunks_flatten_inv (n : Nat) (hn : 0 < n) :
    ∀ bs : List Bytes, ChunkShaped n bs → chunks n bs.flatten = bs := by
  intro bs
  induction bs with
  | nil => intro _; rfl
  | cons b rest ih =>
      intro h
      by_cases hrest : rest = []
      · subst hrest
        have hb : 0 < b.length ∧ b.length ≤ n := h.2 b (by simp)
        have hbne : b ≠ [] := by
          intro hb0
          rw [hb0] at hb
          simp at hb
        rw [List.flatten_cons, List.flatten_nil, List.append_nil,
          chunks_ne_nil hn b hbne, List.take_of_length_le hb.2,
          List.drop_eq_nil_of_le hb.2, chunks_nil]
      · have hblen : b.length = n := chunkShaped_head_len h hrest
        have hbne : b ≠ [] := by
          intro h0
          rw [h0] at hblen
          simp at hblen
          omega
        rw [List.flatten_cons,
          chunks_ne_nil hn _ (fun hcontra =>
            hbne (List.append_eq_nil.mp hcontra).1),
          ← hblen, List.take_left, List.drop_left, hblen,
          ih (chunkShaped_tail h hrest)]

/-- **C8 (counterexample).** Applying the same UpdateFile payload twice does
not always yield the same final file content as applying it once: on a 2-byte
file at block size 1, the payload `{0: [120, 121, 122]}` (a block longer than
the block size) gives `[120, 121, 122, 98]` after one application and
`[120, 121, 122, 121, 122, 98]` after two. -/
theorem update_file_idempotence_counterexample :
    update_file_content
        (update_file_content [97, 98] 1 [(0, [120, 121, 122])]) 1
        [(0, [120, 121, 122])] ≠
      update_file_content [97, 98] 1 [(0, [120, 121, 122])] := by
  decide

/-- Writing out the overlay of an update dictionary `u` on the enumerated
blocks `bs` reproduces `bs.flatten`, provided every key of `u` addresses an
existing block and every value of `u` agrees with the block already there. -/
theorem create_file_from_blks_pythonMerge_eq (bs : List Bytes)
    (u : List (Nat × Bytes)) (hu : ∀ k ∈ dictKeys u, k < bs.length)
    (hvals : ∀ k (hk : k < bs.length),
      dictGet u k = some (bs.get ⟨k, hk⟩) ∨ dictGet u k = none) :
    create_file_from_blks (pythonMerge (enumBlocks 0 bs) u) = bs.flatten := by
  have hkeys : ∀ k, k ∈ dictKeys (pythonMerge (enumBlocks 0 bs) u) ↔
      k < bs.length := by
    intro k
    rw [mem_dictKeys_pythonMerge, dictKeys_enumBlocks, ← List.range_eq_range',
      List.mem_range]
    constructor
    · rintro (h | h)
      · exact h
      · exact hu k h
    · exact Or.inl
  rw [create_file_from_blks, sortedKeys_eq_range _ bs.length hkeys]
  congr 1
  apply List.ext_getElem (by simp)
  intro i h1 h2
  simp only [List.getElem_map, List.getElem_range]
  rw [dictGet_pythonMerge, dictGet_enumBlocks, if_pos (Nat.zero_le i),
    Nat.sub_zero]
  rcases hvals i (by simpa using h2) with hv | hv
  · rw [hv]
    rfl
  · rw [hv, List.getElem?_eq_getElem (by simpa using h2)]
    rfl

/-- **C8 (amended).** Applying the same UpdateFile payload twice yields the
same final file content as applying it once, provided the merged block
mapping (the file's own blocks overlaid with the payload) has a contiguous
key range starting at 0 and is chunk-shaped for the request's block size
(every block of length exactly `block_size` except a shorter, non-empty final
block) — in particular this holds for every payload the requester's diff
computation builds when the local file has at least as many blocks as the
remote one. -/
theorem update_file_content_idempotent (s : Bytes) (n : Nat)
    (u : List (Nat × Bytes)) (hn : 0 < n)
    (hcontig : sortedKeys (pythonMerge (create_block_list s n) u) =
      List.range (sortedKeys (pythonMerge (create_block_list s n) u)).length)
    (hshape : ChunkShaped n
      ((sortedKeys (pythonMerge (create_block_list s n) u)).map
        (fun k => (dictGet (pythonMerge (create_block_list s n) u) k).getD []))) :
    update_file_content (update_file_content s n u) n u =
      update_file_content s n u := by
  have hflat : update_file_content s n u =
      ((sortedKeys (pythonMerge (create_block_list s n) u)).map
        (fun k => (dictGet (pythonMerge (create_block_list s n) u) k).getD [])).flatten :=
    rfl
  rw [hflat]
  -- every key of the payload lies below the number of merged blocks
  have hukeys : ∀ k, k ∈ dictKeys u →
      k < (sortedKeys (pythonMerge (create_block_list s n) u)).length := by
    intro k hk
    have h1 : k ∈ dictKeys (pythonMerge (create_block_list s n) u) :=
      (mem_dictKeys_pythonMerge _ u k).mpr (Or.inr hk)
    have h2 := (mem_sortedKeys (pythonMerge (create_block_list s n) u) k).mpr h1
    rw [hcontig] at h2
    exact List.mem_range.mp h2
  -- the merged blocks written out re-chunk to themselves
  have hchunks : chunks n
      ((sortedKeys (pythonMerge (create_block_list s n) u)).map
        (fun k => (dictGet (pythonMerge (create_block_list s n) u) k).getD [])).flatten =
      (sortedKeys (pythonMerge (create_block_list s n) u)).map
        (fun k => (dictGet (pythonMerge (create_block_list s n) u) k).getD []) :=
    chunks_flatten_inv n hn _ hshape
  show create_file_from_blks
      (pythonMerge (enumBlocks 0 (chunks n _)) u) = _
  rw [hchunks]
  apply create_file_from_blks_pythonMerge_eq
  · intro k hk
    have := hukeys k hk
    simpa using this
  · intro k hk
    cases hu : dictGet u k with
    | none => exact Or.inr rfl
    | some v =>
        left
        congr 1
        have hklen : k < (sortedKeys (pythonMerge (create_block_list s n) u)).length := by
          simpa using hk
        rw [List.get_eq_getElem]
        simp only [List.getElem_map]
        have hksk : (sortedKeys (pythonMerge (create_block_list s n) u))[k] = k := by
          have := congrArg (fun l => l[k]?) hcontig
          simp only [List.getElem?_eq_getElem hklen,
            List.getElem?_eq_getElem (by simpa using hklen :
              k < (List.range (sortedKeys (pythonMerge (create_block_list s n) u)).length).length)] at this
          simpa using this
        rw [hksk, dictGet_pythonMerge, hu]
        rfl

/-- Witness for `update_file_content_idempotent`: a 2-byte file at block
size 1 updated with the single full-size block `{0: [120]}`. -/
theorem update_file_content_idempotent_witness :
    (0 < 1 ∧
      sortedKeys (pythonMerge (create_block_list [97, 98] 1) [(0, [120])]) =
        List.range
          (sortedKeys (pythonMerge (create_block_list [97, 98] 1) [(0, [120])])).length ∧
      ChunkShaped 1
        ((sortedKeys (pythonMerge (create_block_list [97, 98] 1) [(0, [120])])).map
          (fun k =>
            (dictGet (pythonMerge (create_block_list [97, 98] 1) [(0, [120])]) k).getD []))) ∧
    update_file_content (update_file_content [97, 98] 1 [(0, [120])]) 1 [(0, [120])] =
      update_file_content [97, 98] 1 [(0, [120])] :=
  ⟨⟨by decide, by decide, ⟨by decide, by decide⟩⟩,
    update_file_content_idempotent [97, 98] 1 [(0, [120])] (by decide) (by decide)
      ⟨by decide, by decide⟩⟩

/-! ## C5: frame round-trip -/

theorem strBytes_append (a b : String) :
    strBytes (a ++ b) = strBytes a ++ strBytes b := by
  simp [strBytes, String.data_append]

theorem strBytes_mk (l : List Char) :
    strBytes (String.mk l) = l.map Char.toNat := rfl

theorem bytesToStr_strBytes (s : String) : bytesToStr (strBytes s) = s := by
  cases s with
  | mk data =>
      unfold bytesToStr strBytes
      rw [List.map_map, show (Char.ofNat ∘ Char.toNat) = id from funext Char.ofNat_toNat,
        List.map_id]

theorem digitChar_toNat {d : Nat} (h : d < 10) : (Nat.digitChar d).toNat = 48 + d := by
  interval_cases d <;> rfl

theorem natDigitsAux_digits :
    ∀ (fuel m : Nat), m < fuel →
      ∀ c ∈ (natDigitsAux fuel m).map Char.toNat, 48 ≤ c ∧ c ≤ 57 := by
  intro fuel
  induction fuel with
  | zero => intro m h; exact absurd h (Nat.not_lt_zero m)
  | succ f ih =>
      intro m hm c hc
      rw [natDigitsAux] at hc
      by_cases h10 : m < 10
      · rw [if_pos h10] at hc
        simp only [List.map_cons, List.map_nil, List.mem_singleton] at hc
        rw [hc, digitChar_toNat h10]
        omega
      · rw [if_neg h10] at hc
        rw [List.map_append] at hc
        rcases List.mem_append.mp hc with h | h
        · have hdiv : m / 10 < f := by
            have h1 := Nat.div_lt_self (show 0 < m by omega) (show 1 < 10 by omega)
            omega
          exact ih (m / 10) hdiv c h
        · simp only [List.map_cons, List.map_nil, List.mem_singleton] at h
          rw [h, digitChar_toNat (Nat.mod_lt m (by omega))]
          omega

theorem natDigitsAux_ne_nil (fuel m : Nat) (h : m < fuel) :
    natDigitsAux fuel m ≠ [] := by
  cases fuel with
  | zero => omega
  | succ f =>
      rw [natDigitsAux]
      by_cases h10 : m < 10
      · simp [h10]
      · simp [h10]

theorem parseDigits_append_digit (xs : Bytes) (c : Nat) :
    parseDigits (xs ++ [c]) = 10 * parseDigits xs + (c - 48) := by
  unfold parseDigits
  rw [List.foldl_append]
  simp [Nat.mul_comm]

theorem parseDigits_natDigitsAux :
    ∀ (fuel m : Nat), m < fuel →
      parseDigits ((natDigitsAux fuel m).map Char.toNat) = m := by
  intro fuel
  induction fuel with
  | zero => intro m h; exact absurd h (Nat.not_lt_zero m)
  | succ f ih =>
      intro m hm
      rw [natDigitsAux]
      by_cases h10 : m < 10
      · rw [if_pos h10]
        simp only [List.map_cons, List.map_nil]
        rw [digitChar_toNat h10]
        unfold parseDigits
        simp
      · rw [if_neg h10]
        rw [List.map_append]
        simp only [List.map_cons, List.map_nil]
        rw [parseDigits_append_digit]
        have hdiv : m / 10 < f := by
          have h1 := Nat.div_lt_self (show 0 < m by omega) (show 1 < 10 by omega)
          omega
        rw [ih (m / 10) hdiv, digitChar_toNat (Nat.mod_lt m (by omega))]
        have h2 := Nat.div_add_mod m 10
        omega

theorem natDigits_bytes_digits (m : Nat) :
    ∀ c ∈ (natDigits m).map Char.toNat, 48 ≤ c ∧ c ≤ 57 :=
  natDigitsAux_digits (m + 1) m (Nat.lt_succ_self m)

theorem parseDigits_natDigits (m : Nat) :
    parseDigits ((natDigits m).map Char.toNat) = m :=
  parseDigits_natDigitsAux (m + 1) m (Nat.lt_succ_self m)

theorem natDigits_ne_nil (m : Nat) : natDigits m ≠ [] :=
  natDigitsAux_ne_nil (m + 1) m (Nat.lt_succ_self m)

theorem dropToken_append (p r : Bytes) : dropToken p (p ++ r) = some r := by
  unfold dropToken
  rw [List.take_left, List.drop_left, if_pos rfl]

theorem takeUntilByte_append (stop : Nat) (pre rest : Bytes)
    (h : ∀ c ∈ pre, c ≠ stop) :
    takeUntilByte stop (pre ++ stop :: rest) = some (pre, rest) := by
  induction pre with
  | nil => simp [takeUntilByte]
  | cons c pre ih =>
      rw [List.cons_append, takeUntilByte,
        if_neg (h c (List.mem_cons_self c pre)),
        ih (fun x hx => h x (List.mem_cons_of_mem c hx))]
      rfl

theorem strBytes_headerString (bo enc : String) (clen : Nat) :
    strBytes (headerString bo enc clen) =
      strBytes "\x7b\"byteorder\": \"" ++
        (strBytes bo ++ 34 ::
          (strBytes ", \"content-encoding\": \"" ++
            (strBytes enc ++ 34 ::
              (strBytes ", \"content-length\": " ++
                ((natDigits clen).map Char.toNat ++ [125]))))) := by
  unfold headerString
  simp only [strBytes_append, strBytes_mk, List.append_assoc,
    show strBytes "\"" = [34] from rfl, show strBytes "\x7d" = [125] from rfl,
    List.cons_append, List.nil_append]

theorem parseHeaderBytes_roundtrip (bo enc : String) (clen : Nat)
    (hbo : ∀ c ∈ strBytes bo, c ≠ 34)
    (henc : ∀ c ∈ strBytes enc, c ≠ 34) :
    parseHeaderBytes (strBytes (headerString bo enc clen)) =
      some (bo, enc, clen) := by
  rw [strBytes_headerString]
  unfold parseHeaderBytes
  rw [dropToken_append]
  simp only [Option.bind_eq_bind, Option.some_bind]
  rw [takeUntilByte_append 34 _ _ hbo]
  simp only [Option.bind_eq_bind, Option.some_bind]
  rw [dropToken_append]
  simp only [Option.bind_eq_bind, Option.some_bind]
  rw [takeUntilByte_append 34 _ _ henc]
  simp only [Option.bind_eq_bind, Option.some_bind]
  rw [dropToken_append]
  simp only [Option.bind_eq_bind, Option.some_bind]
  rw [show ((natDigits clen).map Char.toNat ++ [125]) =
    ((natDigits clen).map Char.toNat ++ 125 :: []) from rfl]
  rw [takeUntilByte_append 125 _ _ (fun c hc => by
    have := natDigits_bytes_digits clen c hc
    omega)]
  simp only [Option.bind_eq_bind, Option.some_bind]
  rw [if_pos ⟨trivial, by simp [natDigits_ne_nil clen], by
    rw [List.all_eq_true]
    intro c hc
    have := natDigits_bytes_digits clen c hc
    simp only [isDigitByte, Bool.and_eq_true, decide_eq_true_eq]
    omega⟩]
  rw [bytesToStr_strBytes, bytesToStr_strBytes, parseDigits_natDigits]

/-- **C5.** For every header whose field values are plain ASCII (the values
the program uses — `sys.byteorder` and `"utf-8"` — are) and every payload,
provided the encoded header fits the 16-bit length prefix (`struct.pack(">H",
...)` raises beyond 65535), encoding with `create_message` and then running
the two-stage decode — 2-byte big-endian header length, header bytes with the
three required fields, then `content-length` payload bytes — yields the
original header fields and exactly the original payload bytes, with nothing
left in the buffer. -/
theorem create_message_decode_roundtrip (byteorder content_encoding : String)
    (payload : Bytes)
    (hbo : ∀ c ∈ strBytes byteorder, PlainAsciiByte c)
    (henc : ∀ c ∈ strBytes content_encoding, PlainAsciiByte c)
    (_hlen : (strBytes (headerString byteorder content_encoding
      payload.length)).length ≤ 65535) :
    decodeFrame (create_message byteorder payload content_encoding) =
      some ⟨byteorder, content_encoding, payload.length, payload, []⟩ := by
  have hbo' : ∀ c ∈ strBytes byteorder, c ≠ 34 := fun c hc => (hbo c hc).2.1
  have henc' : ∀ c ∈ strBytes content_encoding, c ≠ 34 := fun c hc =>
    (henc c hc).2.1
  have hpre : process_preheader (create_message byteorder payload content_encoding) =
      some ((strBytes (headerString byteorder content_encoding payload.length)).length,
        strBytes (headerString byteorder content_encoding payload.length) ++ payload) := by
    unfold create_message u16be process_preheader
    simp only [List.cons_append, List.nil_append]
    congr 2
    omega
  have hhead : process_header
      (strBytes (headerString byteorder content_encoding payload.length)).length
      (strBytes (headerString byteorder content_encoding payload.length) ++ payload) =
      some ((byteorder, content_encoding, payload.length), payload) := by
    unfold process_header
    rw [if_pos (by simp), List.take_left, List.drop_left,
      parseHeaderBytes_roundtrip byteorder content_encoding payload.length hbo' henc']
    rfl
  have hcont : process_content payload.length payload = some (payload, []) := by
    unfold process_content
    rw [if_pos (Nat.le_refl _), List.take_length, List.drop_length]
  unfold decodeFrame
  rw [hpre]
  simp only [Option.bind_eq_bind, Option.some_bind]
  rw [hhead]
  simp only [Option.bind_eq_bind, Option.some_bind]
  rw [hcont]
  simp only [Option.bind_eq_bind, Option.some_bind]

/-- Witness for `create_message_decode_roundtrip` on the header fields the
program actually sends and a 2-byte payload. -/
theorem create_message_decode_roundtrip_witness :
    ((∀ c ∈ strBytes "little", PlainAsciiByte c) ∧
      (∀ c ∈ strBytes "utf-8", PlainAsciiByte c) ∧
      (strBytes (headerString "little" "utf-8"
        ([104, 105] : Bytes).length)).length ≤ 65535) ∧
    decodeFrame (create_message "little" [104, 105] "utf-8") =
      some ⟨"little", "utf-8", 2, [104, 105], []⟩ :=
  ⟨⟨by decide, by decide, by decide⟩,
    create_message_decode_roundtrip "little" "utf-8" [104, 105]
      (by decide) (by decide) (by decide)⟩

end ClientServerMsg
